import Mathlib

/-
Verification of the federated collective-communication server
(plugin/federated/federated_server.cc).

Byte buffers (C++ std::string) are modelled as lists of bytes (Fin 256).
Multi-byte machine integers are modelled little-endian at the byte level;
an element of width w bytes has a bit pattern in [0, 256^w).  Signed
types are read through a two's-complement decoding; signed overflow on
SUM is modelled as two's-complement wraparound (pattern-level addition
mod 256^w).  Element widths follow the LP64 platform the server targets
(char 1, int 4, long 8, long long 8, float 4, double 8).

The 32/64-bit floating-point reductions (std::max / std::min /
std::plus on float and double bit patterns) are kept abstract: the
machine's FP operations enter as an FpOps parameter mapping bit
patterns to bit patterns, so theorems about the FLOAT/DOUBLE branches
hold for every choice of FP semantics.
-/

namespace Federated

abbrev Byte := Fin 256

/-- Little-endian encoding of a value into w bytes (truncating mod 256^w). -/
def natToBytes : Nat → Nat → List Byte
  | 0, _ => []
  | w + 1, v => ⟨v % 256, Nat.mod_lt _ (by norm_num)⟩ :: natToBytes w (v / 256)

/-- Little-endian decoding of a byte list into a value. -/
def bytesToNat : List Byte → Nat
  | [] => 0
  | b :: r => b.val + 256 * bytesToNat r

/-- Decode n consecutive w-byte chunks of a byte list, little-endian. -/
def decodeChunks (w : Nat) : Nat → List Byte → List Nat
  | 0, _ => []
  | n + 1, l => bytesToNat (l.take w) :: decodeChunks w n (l.drop w)

/-- Decode a byte list as width-w elements; the element count is the
byte length divided by the width, exactly as the C++ reinterpretation
computes it. -/
def decodeElems (w : Nat) (l : List Byte) : List Nat :=
  decodeChunks w (l.length / w) l

/-- Encode a list of width-w element patterns back into bytes. -/
def encodeElems (w : Nat) : List Nat → List Byte
  | [] => []
  | v :: r => natToBytes w v ++ encodeElems w r

/-- The reduce_operation tag of an AllreduceRequest; other stands for
any unrecognized wire value (protobuf enums are open). -/
inductive ReduceOperation
  | MAX
  | MIN
  | SUM
  | other
deriving DecidableEq

/-- The data_type tag of an AllreduceRequest; other stands for any
unrecognized wire value. -/
inductive DataType
  | CHAR
  | UCHAR
  | INT
  | UINT
  | LONG
  | ULONG
  | FLOAT
  | DOUBLE
  | LONGLONG
  | ULONGLONG
  | other
deriving DecidableEq

/-- Element width in bytes of each recognized data type (LP64). -/
def elemWidth : DataType → Nat
  | .CHAR => 1
  | .UCHAR => 1
  | .INT => 4
  | .UINT => 4
  | .FLOAT => 4
  | .LONG => 8
  | .ULONG => 8
  | .DOUBLE => 8
  | .LONGLONG => 8
  | .ULONGLONG => 8
  | .other => 1

/-- Errors raised by the service; std::invalid_argument surfaces as an
InvalidArgument RPC error. -/
inductive FedError
  | invalidArgument (msg : String)
deriving DecidableEq

/-- Two's-complement reading of a width-w bit pattern. -/
def toSigned (w : Nat) (p : Nat) : Int :=
  if p < 256 ^ w / 2 then (p : Int) else (p : Int) - (256 ^ w : Nat)

/-- std::max on a signed type, acting on bit patterns. -/
def signedMax (w : Nat) (a b : Nat) : Nat :=
  if toSigned w a < toSigned w b then b else a

/-- std::min on a signed type, acting on bit patterns. -/
def signedMin (w : Nat) (a b : Nat) : Nat :=
  if toSigned w b < toSigned w a then b else a

/-- The binary element operation of the Accumulate template for an
integer type of width w bytes and given signedness: some f for the
three recognized operations, none for an unrecognized one (which the
template's default case turns into an invalid_argument throw). -/
def intOpSem (w : Nat) (signed : Bool) : ReduceOperation → Option (Nat → Nat → Nat)
  | .MAX => some (fun a b => if signed then signedMax w a b else if a < b then b else a)
  | .MIN => some (fun a b => if signed then signedMin w a b else if b < a then b else a)
  | .SUM => some (fun a b => (a + b) % 256 ^ w)
  | .other => none

/-- Abstract machine floating-point semantics: the result bit pattern
of std::max, std::min, std::plus on float (f32) and double (f64), as a
function of the operand bit patterns. -/
structure FpOps where
  f32 : ReduceOperation → Nat → Nat → Nat
  f64 : ReduceOperation → Nat → Nat → Nat

/-- Element operation of the Accumulate template at a floating type
with machine semantics g; the unrecognized operation is still rejected
by the template's default case. -/
def fpOpSem (g : ReduceOperation → Nat → Nat → Nat) : ReduceOperation → Option (Nat → Nat → Nat)
  | .other => none
  | op => some (g op)

/-- In-place element-wise combination: the element count n is derived
from the accumulator buffer's byte length only (buffer.size() /
sizeof(T) in the source); the first w*n bytes of the buffer are
replaced by the encoded combination and any trailing bytes are kept. -/
def accumulateElems (f : Nat → Nat → Nat) (w : Nat) (buffer input : List Byte) : List Byte :=
  encodeElems w (List.zipWith f (decodeChunks w (buffer.length / w) buffer)
    (decodeChunks w (buffer.length / w) input)) ++ buffer.drop (w * (buffer.length / w))

/-- The templated AllreduceFunctor::Accumulate<T>: dispatch on the
reduce operation, defaulting to an invalid_argument throw. -/
def templateAccumulate (sem : ReduceOperation → Option (Nat → Nat → Nat)) (w : Nat)
    (buffer input : List Byte) (reduce_operation : ReduceOperation) :
    Except FedError (List Byte) :=
  match sem reduce_operation with
  | some f => .ok (accumulateElems f w buffer input)
  | none => .error (.invalidArgument "Invalid reduce operation")

/-- AllreduceFunctor::Accumulate: dispatch on the data type, reinterpret
the byte buffers at the type's width, and combine; unrecognized data
types throw invalid_argument before touching the buffer. -/
def Accumulate (fp : FpOps) (buffer input : List Byte) (data_type : DataType)
    (reduce_operation : ReduceOperation) : Except FedError (List Byte) :=
  match data_type with
  | .CHAR => templateAccumulate (intOpSem 1 true) 1 buffer input reduce_operation
  | .UCHAR => templateAccumulate (intOpSem 1 false) 1 buffer input reduce_operation
  | .INT => templateAccumulate (intOpSem 4 true) 4 buffer input reduce_operation
  | .UINT => templateAccumulate (intOpSem 4 false) 4 buffer input reduce_operation
  | .LONG => templateAccumulate (intOpSem 8 true) 8 buffer input reduce_operation
  | .ULONG => templateAccumulate (intOpSem 8 false) 8 buffer input reduce_operation
  | .FLOAT => templateAccumulate (fpOpSem fp.f32) 4 buffer input reduce_operation
  | .DOUBLE => templateAccumulate (fpOpSem fp.f64) 8 buffer input reduce_operation
  | .LONGLONG => templateAccumulate (intOpSem 8 true) 8 buffer input reduce_operation
  | .ULONGLONG => templateAccumulate (intOpSem 8 false) 8 buffer input reduce_operation
  | .other => .error (.invalidArgument "Invalid data type")

structure AllreduceRequest where
  rank : Nat
  sequence_number : Nat
  send_buffer : List Byte
  data_type : DataType
  reduce_operation : ReduceOperation
deriving DecidableEq

/-- AllreduceFunctor::operator(): copy the send buffer if this is the
first request of the round (shared buffer empty), else accumulate. -/
def allreduceFunctor (fp : FpOps) (request : AllreduceRequest) (buffer : List Byte) :
    Except FedError (List Byte) :=
  if buffer.isEmpty then .ok request.send_buffer
  else Accumulate fp buffer request.send_buffer request.data_type request.reduce_operation

structure AllgatherRequest where
  rank : Nat
  sequence_number : Nat
  send_buffer : List Byte
deriving DecidableEq

/-- std::string::resize: keep the first n bytes, pad with zero bytes. -/
def resizeBytes (buffer : List Byte) (n : Nat) : List Byte :=
  buffer.take n ++ List.replicate (n - buffer.length) 0

/-- std::string::replace(pos, count, str) with count = str.size(), in
the in-range regime the functor uses (pos + count within the buffer). -/
def replaceBytes (buffer : List Byte) (pos : Nat) (str : List Byte) : List Byte :=
  buffer.take pos ++ str ++ buffer.drop (pos + str.length)

/-- AllgatherFunctor::operator(): resize the shared buffer to
send_size * world_size when its size differs, then splice the send
buffer into the caller's rank-indexed slot. -/
def allgatherFunctor (world_size : Nat) (request : AllgatherRequest) (buffer : List Byte) :
    List Byte :=
  let send_size := request.send_buffer.length
  let buffer1 :=
    if buffer.length ≠ send_size * world_size then resizeBytes buffer (send_size * world_size)
    else buffer
  replaceBytes buffer1 (request.rank * send_size) request.send_buffer

structure BroadcastRequest where
  rank : Nat
  sequence_number : Nat
  send_buffer : List Byte
  root : Nat
deriving DecidableEq

/-- BroadcastFunctor::operator(): only the root rank's request writes
the shared buffer. -/
def broadcastFunctor (request : BroadcastRequest) (buffer : List Byte) : List Byte :=
  if request.rank = request.root then request.send_buffer else buffer

/-- The mutable session state of FederatedService: sequence_number_,
received_ (arrived count), sent_ (departed count), buffer_. -/
structure SessionState where
  sequence_number : Nat
  received : Nat
  sent : Nat
  buffer : List Byte
deriving DecidableEq

def initialState : SessionState := ⟨0, 0, 0, []⟩

/-- A collective operation as Handle sees it: how to read a request's
sequence number and payload, and the functor applied to the shared
buffer (errors model a functor throw). -/
structure CollOp (Req : Type) where
  seqOf : Req → Nat
  payloadOf : Req → List Byte
  apply : Req → List Byte → Except FedError (List Byte)

def allgatherOp (world_size : Nat) : CollOp AllgatherRequest :=
  ⟨fun r => r.sequence_number, fun r => r.send_buffer,
   fun r b => .ok (allgatherFunctor world_size r b)⟩

def allreduceOp (fp : FpOps) : CollOp AllreduceRequest :=
  ⟨fun r => r.sequence_number, fun r => r.send_buffer, fun r b => allreduceFunctor fp r b⟩

def broadcastOp : CollOp BroadcastRequest :=
  ⟨fun r => r.sequence_number, fun r => r.send_buffer, fun r b => .ok (broadcastFunctor r b)⟩

/-- Observable events of one Handle call's lock regions.  arrive is
the region after the admission wait: functor application plus arrival
count, with the immediate reply the last arriver takes; arriveErr is
the same region when the functor throws; depart is the region after
the completion wait, carrying the reply copied out; fast is the
world_size == 1 pass-through. -/
inductive Event (Req : Type)
  | arrive (req : Req) (reply : Option (List Byte))
  | arriveErr (req : Req) (err : FedError)
  | depart (reply : List Byte)
  | fast (req : Req) (reply : List Byte)
deriving DecidableEq

/-- One atomic lock region of FederatedService::Handle, as a labelled
transition on the session state.

arrive: admission guard sequence_number_ == request.sequence_number()
(the first condition-variable wait), then functor application and
received_++; when received_ reaches world_size the same region copies
the buffer into the reply and performs sent_++ (lines 175-181).

arriveErr: same admission guard, functor throws; the exception
propagates before received_++ and before any buffer mutation, leaving
the state unchanged.

depart: completion guard received_ == world_size (the second wait);
reply := buffer_, sent_++; when sent_ reaches world_size the same
region resets sent_, received_, clears buffer_ and increments
sequence_number_ (lines 191-199).

fast: the world_size == 1 early return, touching no state. -/
inductive Step {Req : Type} (W : Nat) (op : CollOp Req) :
    SessionState → Event Req → SessionState → Prop
  | arrive (s : SessionState) (req : Req) (b1 : List Byte) (hW : W ≠ 1)
      (hseq : s.sequence_number = op.seqOf req) (hF : op.apply req s.buffer = .ok b1) :
      Step W op s (.arrive req (if s.received + 1 = W then some b1 else none))
        ⟨s.sequence_number, s.received + 1,
         if s.received + 1 = W then s.sent + 1 else s.sent, b1⟩
  | arriveErr (s : SessionState) (req : Req) (err : FedError) (hW : W ≠ 1)
      (hseq : s.sequence_number = op.seqOf req) (hF : op.apply req s.buffer = .error err) :
      Step W op s (.arriveErr req err) s
  | depart (s : SessionState) (hW : W ≠ 1) (hrecv : s.received = W) :
      Step W op s (.depart s.buffer)
        (if s.sent + 1 = W then ⟨s.sequence_number + 1, 0, 0, []⟩
         else ⟨s.sequence_number, s.received, s.sent + 1, s.buffer⟩)
  | fast (s : SessionState) (req : Req) (hW : W = 1) :
      Step W op s (.fast req (op.payloadOf req)) s

/-- Interleaved executions of Handle's lock regions. -/
inductive Trace {Req : Type} (W : Nat) (op : CollOp Req) :
    SessionState → List (Event Req) → SessionState → Prop
  | nil (s : SessionState) : Trace W op s [] s
  | cons {s s1 t : SessionState} {e : Event Req} {es : List (Event Req)} :
      Step W op s e s1 → Trace W op s1 es t → Trace W op s (e :: es) t

/-- Sequential application of a round's functor calls to the shared
buffer, in arrival order, propagating a functor throw. -/
def foldRequests {Req : Type} (op : CollOp Req) : List Req → List Byte → Except FedError (List Byte)
  | [], buffer => .ok buffer
  | r :: rs, buffer =>
    match op.apply r buffer with
    | .ok b1 => foldRequests op rs b1
    | .error e => .error e

lemma length_natToBytes (w v : Nat) : (natToBytes w v).length = w := by
  induction w generalizing v with
  | zero => rfl
  | succ w ih => simp [natToBytes, ih]

lemma bytesToNat_natToBytes (w v : Nat) : bytesToNat (natToBytes w v) = v % 256 ^ w := by
  induction w generalizing v with
  | zero => simp [natToBytes, bytesToNat, Nat.mod_one]
  | succ w ih =>
    simp only [natToBytes, bytesToNat, ih]
    rw [pow_succ, mul_comm (256 ^ w) 256, Nat.mod_mul]

lemma bytesToNat_lt (l : List Byte) : bytesToNat l < 256 ^ l.length := by
  induction l with
  | nil => simp [bytesToNat]
  | cons b r ih =>
    simp only [bytesToNat, List.length_cons, pow_succ, mul_comm (256 ^ r.length) 256]
    have hb : b.val < 256 := b.isLt
    calc b.val + 256 * bytesToNat r < 256 + 256 * bytesToNat r := by omega
    _ = 256 * (bytesToNat r + 1) := by ring
    _ ≤ 256 * 256 ^ r.length := by
        have : bytesToNat r + 1 ≤ 256 ^ r.length := ih
        exact Nat.mul_le_mul_left 256 this

lemma length_encodeElems (w : Nat) (es : List Nat) :
    (encodeElems w es).length = w * es.length := by
  induction es with
  | nil => simp [encodeElems]
  | cons v r ih =>
    simp [encodeElems, ih, length_natToBytes, Nat.mul_succ, Nat.add_comm]

lemma length_decodeChunks (w n : Nat) (l : List Byte) : (decodeChunks w n l).length = n := by
  induction n generalizing l with
  | zero => rfl
  | succ n ih => simp [decodeChunks, ih]

lemma mem_decodeChunks_lt (w n : Nat) (l : List Byte) (x : Nat)
    (hx : x ∈ decodeChunks w n l) : x < 256 ^ w := by
  induction n generalizing l with
  | zero => simp [decodeChunks] at hx
  | succ n ih =>
    simp only [decodeChunks, List.mem_cons] at hx
    rcases hx with h | h
    · subst h
      calc bytesToNat (l.take w) < 256 ^ (l.take w).length := bytesToNat_lt _
      _ ≤ 256 ^ w := Nat.pow_le_pow_right (by norm_num) (by simp)
    · exact ih _ h

lemma decodeChunks_encodeElems (w : Nat) (es : List Nat) :
    decodeChunks w es.length (encodeElems w es) = es.map (· % 256 ^ w) := by
  induction es with
  | nil => rfl
  | cons v r ih =>
    have hlen : (natToBytes w v).length = w := length_natToBytes w v
    simp only [List.length_cons, decodeChunks, encodeElems, List.map_cons]
    congr 1
    · rw [List.take_left' hlen, bytesToNat_natToBytes]
    · rw [List.drop_left' hlen, ih]

lemma decodeChunks_in_range (w : Nat) (es : List Nat)
    (hes : ∀ x ∈ es, x < 256 ^ w) :
    decodeChunks w es.length (encodeElems w es) = es := by
  rw [decodeChunks_encodeElems w es]
  exact (List.map_congr_left fun x hx => Nat.mod_eq_of_lt (hes x hx)).trans (by simp)

lemma decodeChunks_take (w n : Nat) (l : List Byte) :
    decodeChunks w n (l.take (w * n)) = decodeChunks w n l := by
  induction n generalizing l with
  | zero => rfl
  | succ n ih =>
    simp only [decodeChunks]
    congr 1
    · have hmin : w ⊓ w * (n + 1) = w :=
        Nat.min_eq_left (Nat.le_mul_of_pos_right w (Nat.succ_pos n))
      rw [List.take_take, hmin]
    · rw [List.drop_take]
      have h2 : w * (n + 1) - w = w * n := by rw [Nat.mul_succ]; omega
      rw [h2, ih]

lemma decodeElems_encodeElems (w : Nat) (es : List Nat) (hw : 0 < w)
    (hes : ∀ x ∈ es, x < 256 ^ w) : decodeElems w (encodeElems w es) = es := by
  unfold decodeElems
  rw [length_encodeElems, Nat.mul_div_cancel_left _ hw]
  exact decodeChunks_in_range w es hes

lemma mem_zipWith {α β γ : Type} {f : α → β → γ} {l1 : List α} {l2 : List β} {x : γ}
    (hx : x ∈ List.zipWith f l1 l2) : ∃ a ∈ l1, ∃ b ∈ l2, x = f a b := by
  induction l1 generalizing l2 with
  | nil => simp at hx
  | cons a r ih =>
    cases l2 with
    | nil => simp at hx
    | cons b r2 =>
      simp only [List.zipWith_cons_cons, List.mem_cons] at hx
      rcases hx with h | h
      · exact ⟨a, List.mem_cons_self a r, b, List.mem_cons_self b r2, h⟩
      · obtain ⟨a1, ha1, b1, hb1, hx1⟩ := ih h
        exact ⟨a1, List.mem_cons_of_mem a ha1, b1, List.mem_cons_of_mem b hb1, hx1⟩

lemma length_accumulateElems (f : Nat → Nat → Nat) (w : Nat) (buffer input : List Byte) :
    (accumulateElems f w buffer input).length = buffer.length := by
  unfold accumulateElems
  rw [List.length_append, length_encodeElems, List.length_zipWith,
    length_decodeChunks, length_decodeChunks, List.length_drop]
  have h1 : w * (buffer.length / w) ≤ buffer.length := Nat.mul_div_le buffer.length w
  simp only [min_self]
  omega

/-- Element-wise meaning of accumulateElems: when the buffer length is
an exact multiple of the width, both buffers have the same length, and
the element operation maps in-range patterns to in-range patterns, the
decoded result is the element-wise combination of the decoded inputs. -/
lemma decode_accumulateElems (f : Nat → Nat → Nat) (w : Nat) (buffer input : List Byte)
    (hw : 0 < w) (hdvd : w ∣ buffer.length) (hlen : input.length = buffer.length)
    (hf : ∀ a b, a < 256 ^ w → b < 256 ^ w → f a b < 256 ^ w) :
    decodeElems w (accumulateElems f w buffer input) =
      List.zipWith f (decodeElems w buffer) (decodeElems w input) := by
  have hmul : w * (buffer.length / w) = buffer.length := Nat.mul_div_cancel' hdvd
  have hdrop : buffer.drop (w * (buffer.length / w)) = [] := by
    rw [hmul]; exact List.drop_length buffer
  have hz : ∀ x ∈ List.zipWith f (decodeChunks w (buffer.length / w) buffer)
      (decodeChunks w (buffer.length / w) input), x < 256 ^ w := by
    intro x hx
    obtain ⟨a, ha, b, hb, hxab⟩ := mem_zipWith hx
    subst hxab
    exact hf a b (mem_decodeChunks_lt _ _ _ _ ha) (mem_decodeChunks_lt _ _ _ _ hb)
  unfold accumulateElems
  rw [hdrop, List.append_nil, decodeElems_encodeElems w _ hw hz]
  unfold decodeElems
  rw [hlen]

/-- Whether the data type is read through a signed interpretation. -/
def isSignedInt : DataType → Bool
  | .CHAR => true
  | .INT => true
  | .LONG => true
  | .LONGLONG => true
  | _ => false

/-- The per-element combination Accumulate realizes for each
recognized data type and operation, written out as the specification
reads: signed or unsigned max/min on the type's values, and fixed
width wraparound addition for SUM; FLOAT and DOUBLE defer to the
machine's floating-point semantics. -/
def elemSem (fp : FpOps) (dt : DataType) (op : ReduceOperation) : Nat → Nat → Nat :=
  match dt with
  | .FLOAT => fp.f32 op
  | .DOUBLE => fp.f64 op
  | _ =>
    match op with
    | .MAX => fun a b =>
        if isSignedInt dt then signedMax (elemWidth dt) a b else if a < b then b else a
    | .MIN => fun a b =>
        if isSignedInt dt then signedMin (elemWidth dt) a b else if b < a then b else a
    | .SUM => fun a b => (a + b) % 256 ^ elemWidth dt
    | .other => fun a _ => a

/-- On recognized data types and operations, Accumulate succeeds and
is the element-wise in-place combination at the type's width. -/
lemma Accumulate_eq_ok (fp : FpOps) (dt : DataType) (op : ReduceOperation)
    (hdt : dt ≠ .other) (hop : op ≠ .other) (buffer input : List Byte) :
    Accumulate fp buffer input dt op =
      .ok (accumulateElems (elemSem fp dt op) (elemWidth dt) buffer input) := by
  cases dt <;> cases op <;>
    simp_all [Accumulate, templateAccumulate, intOpSem, fpOpSem, elemSem, elemWidth, isSignedInt]

/-- A floating-point semantics is a valid bit-pattern function when
its results fit the element width. -/
def FpValid (fp : FpOps) : Prop :=
  (∀ op a b, fp.f32 op a b < 256 ^ 4) ∧ (∀ op a b, fp.f64 op a b < 256 ^ 8)

lemma elemSem_lt (fp : FpOps) (hfp : FpValid fp) (dt : DataType) (op : ReduceOperation)
    (a b : Nat) (ha : a < 256 ^ elemWidth dt) (hb : b < 256 ^ elemWidth dt) :
    elemSem fp dt op a b < 256 ^ elemWidth dt := by
  cases dt <;> cases op <;>
    simp_all [elemSem, elemWidth, isSignedInt, signedMax, signedMin] <;>
    first
      | exact hfp.1 ..
      | exact hfp.2 ..
      | (split <;> omega)
      | exact Nat.mod_lt _ (Nat.pos_pow_of_pos _ (by norm_num))
      | omega

lemma elemWidth_pos (dt : DataType) : 0 < elemWidth dt := by
  cases dt <;> simp [elemWidth]

lemma length_decodeElems (w : Nat) (l : List Byte) :
    (decodeElems w l).length = l.length / w := length_decodeChunks ..

/-- C8: for every recognized element type tag, every operation tag
among MAX, MIN, SUM, and every pair of buffers of identical byte
length that is a multiple of the element width, the typed reduction
succeeds and combines the buffers element-wise in place into the first
buffer over exactly buffer-length / element-width elements: the result
keeps the first buffer's byte length, and its i-th decoded element is
the type's max, min, or fixed-width wraparound sum (the machine
floating-point operation for FLOAT/DOUBLE) of the i-th decoded
elements of the two inputs. -/
theorem typed_reduction_elementwise (fp : FpOps) (hfp : FpValid fp) (dt : DataType)
    (op : ReduceOperation) (hdt : dt ≠ .other) (hop : op ≠ .other)
    (buffer input : List Byte) (hlen : input.length = buffer.length)
    (hdvd : elemWidth dt ∣ buffer.length) :
    ∃ result, Accumulate fp buffer input dt op = .ok result ∧
      result.length = buffer.length ∧
      (decodeElems (elemWidth dt) result).length = buffer.length / elemWidth dt ∧
      decodeElems (elemWidth dt) result =
        List.zipWith (elemSem fp dt op) (decodeElems (elemWidth dt) buffer)
          (decodeElems (elemWidth dt) input) := by
  have hw : 0 < elemWidth dt := elemWidth_pos dt
  have hdec := decode_accumulateElems (elemSem fp dt op) (elemWidth dt) buffer input hw hdvd
    hlen (fun a b ha hb => elemSem_lt fp hfp dt op a b ha hb)
  refine ⟨_, Accumulate_eq_ok fp dt op hdt hop buffer input, ?_, ?_, hdec⟩
  · exact length_accumulateElems ..
  · rw [hdec, List.length_zipWith, length_decodeElems, length_decodeElems, hlen, min_self]

/-- Concrete instantiation of the C8 theorem: CHAR SUM over one-byte
buffers, with a trivially valid floating-point semantics. -/
theorem typed_reduction_elementwise_witness :
    ∃ result,
      Accumulate ⟨fun _ _ _ => 0, fun _ _ _ => 0⟩ [(3 : Byte)] [(4 : Byte)] .CHAR .SUM =
        .ok result ∧
      result.length = [(3 : Byte)].length ∧
      (decodeElems (elemWidth .CHAR) result).length = [(3 : Byte)].length / elemWidth .CHAR ∧
      decodeElems (elemWidth .CHAR) result =
        List.zipWith (elemSem ⟨fun _ _ _ => 0, fun _ _ _ => 0⟩ .CHAR .SUM)
          (decodeElems (elemWidth .CHAR) [(3 : Byte)])
          (decodeElems (elemWidth .CHAR) [(4 : Byte)]) :=
  typed_reduction_elementwise ⟨fun _ _ _ => 0, fun _ _ _ => 0⟩
    ⟨fun _ _ _ => by norm_num, fun _ _ _ => by norm_num⟩ .CHAR .SUM
    (by decide) (by decide) [(3 : Byte)] [(4 : Byte)] rfl (by decide)

lemma accumulateElems_take (f : Nat → Nat → Nat) (w : Nat) (buffer input : List Byte) :
    accumulateElems f w buffer input =
      accumulateElems f w buffer (input.take (w * (buffer.length / w))) := by
  unfold accumulateElems
  rw [decodeChunks_take]

lemma templateAccumulate_take (sem : ReduceOperation → Option (Nat → Nat → Nat)) (w : Nat)
    (buffer input : List Byte) (op : ReduceOperation) :
    templateAccumulate sem w buffer input op =
      templateAccumulate sem w buffer (input.take (w * (buffer.length / w))) op := by
  unfold templateAccumulate
  cases sem op with
  | some f => simp only [accumulateElems_take f w buffer input]
  | none => rfl

/-- Accumulate reads the incoming payload only through its first
width * (buffer length / width) bytes: the element count comes from
the accumulator buffer alone. -/
lemma Accumulate_take (fp : FpOps) (dt : DataType) (op : ReduceOperation)
    (buffer input : List Byte) :
    Accumulate fp buffer input dt op =
      Accumulate fp buffer (input.take (elemWidth dt * (buffer.length / elemWidth dt))) dt op := by
  cases dt <;>
    simp only [Accumulate, elemWidth] <;>
    first
      | rfl
      | exact templateAccumulate_take ..

lemma templateAccumulate_ok_length (sem : ReduceOperation → Option (Nat → Nat → Nat))
    (w : Nat) (buffer input : List Byte) (op : ReduceOperation) (result : List Byte)
    (h : templateAccumulate sem w buffer input op = .ok result) :
    result.length = buffer.length := by
  unfold templateAccumulate at h
  cases hsem : sem op with
  | some f =>
    rw [hsem] at h
    simp only [Except.ok.injEq] at h
    rw [← h]
    exact length_accumulateElems ..
  | none => rw [hsem] at h; simp at h

lemma Accumulate_ok_length (fp : FpOps) (dt : DataType) (op : ReduceOperation)
    (buffer input result : List Byte)
    (h : Accumulate fp buffer input dt op = .ok result) : result.length = buffer.length := by
  cases dt <;> simp only [Accumulate] at h <;>
    first
      | exact templateAccumulate_ok_length _ _ _ _ _ _ h
      | simp at h

lemma allreduceFunctor_ok_length (fp : FpOps) (r : AllreduceRequest) (b b1 : List Byte)
    (hstep : allreduceFunctor fp r b = .ok b1) (hlen : r.send_buffer.length = b.length) :
    b1.length = b.length := by
  unfold allreduceFunctor at hstep
  by_cases hbe : b.isEmpty
  · rw [if_pos hbe] at hstep
    simp only [Except.ok.injEq] at hstep
    rw [← hstep]
    exact hlen
  · rw [if_neg hbe] at hstep
    exact Accumulate_ok_length fp _ _ b _ b1 hstep

lemma foldRequests_allreduce_length (fp : FpOps) (reqs : List AllreduceRequest) :
    ∀ (b res : List Byte), foldRequests (allreduceOp fp) reqs b = .ok res →
      (∀ r ∈ reqs, r.send_buffer.length = b.length) → res.length = b.length := by
  induction reqs with
  | nil =>
    intro b res h _
    simp only [foldRequests, Except.ok.injEq] at h
    rw [← h]
  | cons r rest ih =>
    intro b res h hlen
    simp only [foldRequests] at h
    cases hstep : (allreduceOp fp).apply r b with
    | error e => rw [hstep] at h; simp at h
    | ok b1 =>
      rw [hstep] at h
      simp only at h
      have hb1 : b1.length = b.length :=
        allreduceFunctor_ok_length fp r b b1 hstep (hlen r (List.mem_cons_self r rest))
      have := ih b1 res h (fun r2 hr2 => (hlen r2 (List.mem_cons_of_mem r hr2)).trans hb1.symm)
      omega

/-- C9: the element count of every Accumulate step comes from the
accumulator buffer's byte size only: the call's result is unchanged by
truncating the incoming payload to the first width * count bytes, and
under the equal-length precondition that prefix lies within the
payload's bounds; consequently, an Allreduce round's final buffer has
exactly the byte length of the first-arriving payload. -/
theorem allreduce_count_from_accumulator (fp : FpOps) :
    (∀ (dt : DataType) (op : ReduceOperation) (buffer input : List Byte),
        Accumulate fp buffer input dt op =
          Accumulate fp buffer (input.take (elemWidth dt * (buffer.length / elemWidth dt)))
            dt op) ∧
    (∀ (dt : DataType) (buffer input : List Byte), input.length = buffer.length →
        elemWidth dt * (buffer.length / elemWidth dt) ≤ input.length) ∧
    (∀ (first : AllreduceRequest) (rest : List AllreduceRequest) (res : List Byte),
        (∀ r ∈ rest, r.send_buffer.length = first.send_buffer.length) →
        foldRequests (allreduceOp fp) (first :: rest) [] = .ok res →
        res.length = first.send_buffer.length) := by
  refine ⟨fun dt op b i => Accumulate_take fp dt op b i, ?_, ?_⟩
  · intro dt b i hli
    rw [hli]
    exact Nat.mul_div_le b.length (elemWidth dt)
  · intro first rest res hlen h
    simp only [foldRequests, allreduceOp, allreduceFunctor, List.isEmpty_nil, if_pos] at h
    exact foldRequests_allreduce_length fp rest first.send_buffer res h hlen

/-- Concrete instantiation of the C9 theorem. -/
theorem allreduce_count_from_accumulator_witness :
    Accumulate ⟨fun _ _ _ => 0, fun _ _ _ => 0⟩ [(3 : Byte)] [(4 : Byte)] .CHAR .SUM =
      Accumulate ⟨fun _ _ _ => 0, fun _ _ _ => 0⟩ [(3 : Byte)]
        ([(4 : Byte)].take (elemWidth .CHAR * ([(3 : Byte)].length / elemWidth .CHAR)))
        .CHAR .SUM ∧
    elemWidth .CHAR * ([(3 : Byte)].length / elemWidth .CHAR) ≤ [(4 : Byte)].length ∧
    [(7 : Byte)].length = [(3 : Byte)].length :=
  ⟨(allreduce_count_from_accumulator ⟨fun _ _ _ => 0, fun _ _ _ => 0⟩).1 .CHAR .SUM
      [(3 : Byte)] [(4 : Byte)],
   (allreduce_count_from_accumulator ⟨fun _ _ _ => 0, fun _ _ _ => 0⟩).2.1 .CHAR
      [(3 : Byte)] [(4 : Byte)] rfl,
   (allreduce_count_from_accumulator ⟨fun _ _ _ => 0, fun _ _ _ => 0⟩).2.2
      ⟨0, 0, [(3 : Byte)], .CHAR, .SUM⟩ [⟨1, 0, [(4 : Byte)], .CHAR, .SUM⟩] [(7 : Byte)]
      (by intro r hr; simp at hr; subst hr; rfl) (by rfl)⟩

/-- C5 counterexample: an Allreduce request with an unrecognized data
type tag that is the first to arrive (shared buffer empty) does not
raise InvalidArgument: operator() copies its payload into the shared
buffer before any tag reaches a validating switch, so the call
succeeds and the shared buffer changes. -/
theorem invalid_first_arrival_counterexample :
    allreduceFunctor ⟨fun _ _ _ => 0, fun _ _ _ => 0⟩
      ⟨0, 0, [(1 : Byte)], .other, .SUM⟩ [] = .ok [(1 : Byte)] ∧
    ([(1 : Byte)] : List Byte) ≠ [] :=
  ⟨rfl, by decide⟩

/-- C5 (amended): for an Allreduce request with an unrecognized
element type tag or reduce operation tag, when the request arrives
while the shared buffer is nonempty the call raises InvalidArgument
and the raise happens before any mutation (the arriveErr transition
leaves the session state, including arrived count and shared buffer,
unchanged); but when such a request is the first to arrive (shared
buffer empty) no error is raised and its payload is copied into the
shared buffer. -/
theorem invalid_allreduce_rejected (fp : FpOps) (W : Nat) (s : SessionState)
    (req : AllreduceRequest)
    (hbad : req.data_type = .other ∨ req.reduce_operation = .other) :
    (s.buffer ≠ [] →
      (∃ msg, allreduceFunctor fp req s.buffer = .error (.invalidArgument msg)) ∧
      (∀ (s' : SessionState) (err : FedError),
          Step W (allreduceOp fp) s (.arriveErr req err) s' → s' = s)) ∧
    (s.buffer = [] → allreduceFunctor fp req s.buffer = .ok req.send_buffer) := by
  constructor
  · intro hbuf
    constructor
    · have hne : s.buffer.isEmpty = false := by
        cases hb : s.buffer with
        | nil => exact absurd hb hbuf
        | cons x xs => rfl
      unfold allreduceFunctor
      rw [hne]
      simp only [Bool.false_eq_true, if_false]
      rcases hbad with hdt | hop
      · rw [hdt]
        exact ⟨"Invalid data type", rfl⟩
      · rw [hop]
        cases req.data_type <;>
          first
            | exact ⟨"Invalid reduce operation", rfl⟩
            | exact ⟨"Invalid data type", rfl⟩
    · intro s' err h
      cases h
      rfl
  · intro hbuf
    unfold allreduceFunctor
    rw [hbuf]
    rfl

/-- Concrete instantiation of the amended C5 theorem at a nonempty
buffer and an unrecognized data type. -/
theorem invalid_allreduce_rejected_witness :
    (([(2 : Byte)] : List Byte) ≠ [] →
      (∃ msg, allreduceFunctor ⟨fun _ _ _ => 0, fun _ _ _ => 0⟩
          ⟨0, 0, [(1 : Byte)], .other, .SUM⟩ [(2 : Byte)] = .error (.invalidArgument msg)) ∧
      (∀ (s' : SessionState) (err : FedError),
          Step 2 (allreduceOp ⟨fun _ _ _ => 0, fun _ _ _ => 0⟩) ⟨0, 1, 0, [(2 : Byte)]⟩
            (.arriveErr ⟨0, 0, [(1 : Byte)], .other, .SUM⟩ err) s' →
          s' = ⟨0, 1, 0, [(2 : Byte)]⟩)) ∧
    (([(2 : Byte)] : List Byte) = [] →
      allreduceFunctor ⟨fun _ _ _ => 0, fun _ _ _ => 0⟩
        ⟨0, 0, [(1 : Byte)], .other, .SUM⟩ [(2 : Byte)] = .ok [(1 : Byte)]) :=
  invalid_allreduce_rejected ⟨fun _ _ _ => 0, fun _ _ _ => 0⟩ 2 ⟨0, 1, 0, [(2 : Byte)]⟩
    ⟨0, 0, [(1 : Byte)], .other, .SUM⟩ (Or.inl rfl)

/-- The eight integer element types (fixed-width integer arithmetic). -/
def isIntType : DataType → Bool
  | .CHAR | .UCHAR | .INT | .UINT | .LONG | .ULONG | .LONGLONG | .ULONGLONG => true
  | _ => false

lemma isIntType_ne_other (dt : DataType) (h : isIntType dt = true) : dt ≠ .other := by
  cases dt <;> simp_all [isIntType]

lemma elemSem_int_sum (fp : FpOps) (dt : DataType) (h : isIntType dt = true) :
    elemSem fp dt .SUM = fun a b => (a + b) % 256 ^ elemWidth dt := by
  cases dt <;> simp_all [isIntType, elemSem]

lemma getD_zipWith (f : Nat → Nat → Nat) (l1 l2 : List Nat) (i : Nat)
    (h1 : i < l1.length) (h2 : i < l2.length) :
    (List.zipWith f l1 l2).getD i 0 = f (l1.getD i 0) (l2.getD i 0) := by
  induction l1 generalizing l2 i with
  | nil => simp at h1
  | cons a r ih =>
    cases l2 with
    | nil => simp at h2
    | cons b r2 =>
      cases i with
      | zero => simp [List.zipWith_cons_cons]
      | succ j =>
        simp only [List.zipWith_cons_cons, List.getD_cons_succ]
        exact ih r2 j (by simp at h1; omega) (by simp at h2; omega)

lemma getD_lt_of_mem (l : List Nat) (i M : Nat) (hi : i < l.length)
    (hl : ∀ x ∈ l, x < M) : l.getD i 0 < M := by
  rw [List.getD_eq_getElem l 0 hi]
  exact hl _ (List.getElem_mem hi)

/-- Shape invariant of the element-wise wraparound-sum fold: length
and range are preserved. -/
lemma foldl_zipWith_sum_shape (M n : Nat) (hM : 0 < M) :
    ∀ (qs : List (List Nat)) (es : List Nat), es.length = n → (∀ x ∈ es, x < M) →
      (∀ p ∈ qs, p.length = n) →
      (qs.foldl (fun acc p => List.zipWith (fun a b => (a + b) % M) acc p) es).length = n ∧
      ∀ x ∈ qs.foldl (fun acc p => List.zipWith (fun a b => (a + b) % M) acc p) es, x < M := by
  intro qs
  induction qs with
  | nil => intro es h1 h2 _; exact ⟨h1, h2⟩
  | cons p rest ih =>
    intro es h1 h2 h3
    simp only [List.foldl_cons]
    refine ih (List.zipWith _ es p) ?_ ?_ (fun q hq => h3 q (List.mem_cons_of_mem p hq))
    · rw [List.length_zipWith, h1, h3 p (List.mem_cons_self p rest), min_self]
    · intro x hx
      obtain ⟨a, _, b, _, hxab⟩ := mem_zipWith hx
      subst hxab
      exact Nat.mod_lt _ hM

/-- Index-wise value of the element-wise wraparound-sum fold: position
i holds the plain sum of all contributions at position i, reduced
modulo M. -/
lemma foldl_zipWith_sum_getD (M n : Nat) (hM : 0 < M) :
    ∀ (qs : List (List Nat)) (es : List Nat), es.length = n → (∀ x ∈ es, x < M) →
      (∀ p ∈ qs, p.length = n) → ∀ i, i < n →
      (qs.foldl (fun acc p => List.zipWith (fun a b => (a + b) % M) acc p) es).getD i 0 =
        (es.getD i 0 + (qs.map (fun p => p.getD i 0)).sum) % M := by
  intro qs
  induction qs with
  | nil =>
    intro es h1 h2 _ i hi
    simp only [List.foldl_nil, List.map_nil, List.sum_nil, Nat.add_zero]
    exact (Nat.mod_eq_of_lt (getD_lt_of_mem es i M (h1 ▸ hi) h2)).symm
  | cons p rest ih =>
    intro es h1 h2 h3 i hi
    have hp : p.length = n := h3 p (List.mem_cons_self p rest)
    have hzlen : (List.zipWith (fun a b => (a + b) % M) es p).length = n := by
      rw [List.length_zipWith, h1, hp, min_self]
    have hzr : ∀ x ∈ List.zipWith (fun a b => (a + b) % M) es p, x < M := by
      intro x hx
      obtain ⟨a, _, b, _, hxab⟩ := mem_zipWith hx
      subst hxab
      exact Nat.mod_lt _ hM
    simp only [List.foldl_cons, List.map_cons, List.sum_cons]
    rw [ih (List.zipWith _ es p) hzlen hzr (fun q hq => h3 q (List.mem_cons_of_mem p hq)) i hi]
    rw [getD_zipWith _ es p i (h1 ▸ hi) (hp ▸ hi)]
    rw [Nat.mod_add_mod]
    congr 1
    omega

/-- Folding Allreduce SUM requests with integer element type into a
buffer holding the in-range elements es yields the element-wise
wraparound-sum fold of the payload element lists onto es. -/
lemma allreduce_sum_fold (fp : FpOps) (dt : DataType) (hdt : isIntType dt = true) (n : Nat) :
    ∀ (qs : List (List Nat)) (es : List Nat), es.length = n →
      (∀ x ∈ es, x < 256 ^ elemWidth dt) →
      (∀ p ∈ qs, p.length = n ∧ ∀ x ∈ p, x < 256 ^ elemWidth dt) →
      ∀ (reqs : List AllreduceRequest),
        reqs.map (fun r => r.send_buffer) = qs.map (encodeElems (elemWidth dt)) →
        (∀ r ∈ reqs, r.data_type = dt ∧ r.reduce_operation = .SUM) →
        foldRequests (allreduceOp fp) reqs (encodeElems (elemWidth dt) es) =
          .ok (encodeElems (elemWidth dt)
            (qs.foldl
              (fun acc p => List.zipWith (fun a b => (a + b) % 256 ^ elemWidth dt) acc p) es)) := by
  have hw : 0 < elemWidth dt := elemWidth_pos dt
  intro qs
  induction qs with
  | nil =>
    intro es _ _ _ reqs hmap _
    have : reqs = [] := by
      cases reqs with
      | nil => rfl
      | cons a l => simp at hmap
    subst this
    rfl
  | cons p rest ih =>
    intro es hlen hes hqs reqs hmap htags
    cases reqs with
    | nil => simp at hmap
    | cons r rs =>
      simp only [List.map_cons, List.cons.injEq] at hmap
      obtain ⟨hr, hrs⟩ := hmap
      have hp := hqs p (List.mem_cons_self p rest)
      have hstep : (allreduceOp fp).apply r (encodeElems (elemWidth dt) es) =
          .ok (encodeElems (elemWidth dt)
            (List.zipWith (fun a b => (a + b) % 256 ^ elemWidth dt) es p)) := by
        simp only [allreduceOp]
        unfold allreduceFunctor
        by_cases hn : n = 0
        · subst hn
          have hesnil : es = [] := List.length_eq_zero.mp hlen
          have hpnil : p = [] := List.length_eq_zero.mp hp.1
          subst hesnil
          subst hpnil
          simp [encodeElems, hr]
        · have hne : (encodeElems (elemWidth dt) es).isEmpty = false := by
            cases he : encodeElems (elemWidth dt) es with
            | nil =>
              have := length_encodeElems (elemWidth dt) es
              rw [he, hlen] at this
              simp at this
              omega
            | cons x xs => rfl
          rw [hne]
          simp only [Bool.false_eq_true, if_false]
          have htag := htags r (List.mem_cons_self r rs)
          rw [htag.1, htag.2, hr]
          rw [Accumulate_eq_ok fp dt .SUM (isIntType_ne_other dt hdt) (by simp) _ _]
          congr 1
          unfold accumulateElems
          have hblen : (encodeElems (elemWidth dt) es).length = elemWidth dt * n := by
            rw [length_encodeElems, hlen]
          rw [hblen, Nat.mul_div_cancel_left n hw]
          have hdec1 : decodeChunks (elemWidth dt) n (encodeElems (elemWidth dt) es) = es := by
            rw [← hlen]
            exact decodeChunks_in_range _ es hes
          have hdec2 : decodeChunks (elemWidth dt) n (encodeElems (elemWidth dt) p) = p := by
            rw [← hp.1]
            exact decodeChunks_in_range _ p hp.2
          have hdrop : (encodeElems (elemWidth dt) es).drop (elemWidth dt * n) = [] := by
            rw [← hblen]
            exact List.drop_length _
          rw [hdec1, hdec2, hdrop, List.append_nil, elemSem_int_sum fp dt hdt]
      simp only [foldRequests, hstep, List.foldl_cons]
      exact ih (List.zipWith _ es p)
        (by rw [List.length_zipWith, hlen, hp.1, min_self])
        (by
          intro x hx
          obtain ⟨a, _, b, _, hxab⟩ := mem_zipWith hx
          subst hxab
          exact Nat.mod_lt _ (Nat.pos_pow_of_pos _ (by norm_num)))
        (fun q hq => hqs q (List.mem_cons_of_mem p hq)) rs hrs
        (fun r2 hr2 => htags r2 (List.mem_cons_of_mem r hr2))

/-- C3: for every world size W, every list of W equal-length in-range
integer element payloads, and every permutation of the order in which
the W ranks' Allreduce SUM contributions are folded into the
(initially empty) shared buffer, the fold succeeds and the final
buffer holds at each element index the arithmetic sum of the W ranks'
elements at that index in the element type's fixed-width (wraparound)
arithmetic - a value that depends only on the unordered payload list,
hence is the same for every permutation. -/
theorem allreduce_sum_permutation (fp : FpOps) (dt : DataType) (hdt : isIntType dt = true)
    (W n : Nat) (hW : 0 < W) (ps qs : List (List Nat)) (hps : ps.length = W)
    (hperm : qs.Perm ps) (hn : ∀ p ∈ ps, p.length = n)
    (hrange : ∀ p ∈ ps, ∀ x ∈ p, x < 256 ^ elemWidth dt)
    (reqs : List AllreduceRequest)
    (hreqs : reqs.map (fun r => r.send_buffer) = qs.map (encodeElems (elemWidth dt)))
    (htags : ∀ r ∈ reqs, r.data_type = dt ∧ r.reduce_operation = .SUM) :
    ∃ res, foldRequests (allreduceOp fp) reqs [] = .ok res ∧
      (decodeElems (elemWidth dt) res).length = n ∧
      ∀ i, i < n → (decodeElems (elemWidth dt) res).getD i 0 =
        (ps.map (fun p => p.getD i 0)).sum % 256 ^ elemWidth dt := by
  have hw : 0 < elemWidth dt := elemWidth_pos dt
  have hM : 0 < 256 ^ elemWidth dt := Nat.pos_pow_of_pos _ (by norm_num)
  have hqsps : ∀ q ∈ qs, q ∈ ps := fun q hq => hperm.subset hq
  cases qs with
  | nil =>
    have : ps = [] := hperm.symm.eq_nil
    rw [this] at hps
    simp at hps
    omega
  | cons q1 qrest =>
    cases reqs with
    | nil => simp at hreqs
    | cons r1 rrest =>
      simp only [List.map_cons, List.cons.injEq] at hreqs
      obtain ⟨hr1, hrrest⟩ := hreqs
      have hq1 : q1 ∈ ps := hqsps q1 (List.mem_cons_self q1 qrest)
      have hfirst : (allreduceOp fp).apply r1 [] = .ok (encodeElems (elemWidth dt) q1) := by
        simp only [allreduceOp]
        unfold allreduceFunctor
        rw [hr1]
        rfl
      have hfold := allreduce_sum_fold fp dt hdt n qrest q1 (hn q1 hq1) (hrange q1 hq1)
        (fun q hq =>
          ⟨hn q (hqsps q (List.mem_cons_of_mem q1 hq)),
           hrange q (hqsps q (List.mem_cons_of_mem q1 hq))⟩)
        rrest hrrest (fun r hr => htags r (List.mem_cons_of_mem r1 hr))
      have hshape := foldl_zipWith_sum_shape (256 ^ elemWidth dt) n hM qrest q1
        (hn q1 hq1) (hrange q1 hq1)
        (fun q hq => hn q (hqsps q (List.mem_cons_of_mem q1 hq)))
      refine ⟨encodeElems (elemWidth dt)
        (qrest.foldl
          (fun acc p => List.zipWith (fun a b => (a + b) % 256 ^ elemWidth dt) acc p) q1),
        ?_, ?_, ?_⟩
      · simp only [foldRequests, hfirst]
        exact hfold
      · rw [decodeElems_encodeElems _ _ hw hshape.2, hshape.1]
      · intro i hi
        rw [decodeElems_encodeElems _ _ hw hshape.2]
        rw [foldl_zipWith_sum_getD (256 ^ elemWidth dt) n hM qrest q1 (hn q1 hq1)
          (hrange q1 hq1) (fun q hq => hn q (hqsps q (List.mem_cons_of_mem q1 hq))) i hi]
        have hsum := (hperm.map (fun p => p.getD i 0)).sum_eq
        simp only [List.map_cons, List.sum_cons] at hsum
        rw [← hsum]

/-- Concrete instantiation of the C3 theorem: two one-byte CHAR
payloads folded in swapped order. -/
theorem allreduce_sum_permutation_witness :
    ∃ res, foldRequests (allreduceOp ⟨fun _ _ _ => 0, fun _ _ _ => 0⟩)
        [⟨0, 0, [(2 : Byte)], .CHAR, .SUM⟩, ⟨1, 0, [(1 : Byte)], .CHAR, .SUM⟩] [] = .ok res ∧
      (decodeElems (elemWidth .CHAR) res).length = 1 ∧
      ∀ i, i < 1 → (decodeElems (elemWidth .CHAR) res).getD i 0 =
        (([[1], [2]] : List (List Nat)).map (fun p => p.getD i 0)).sum %
          256 ^ elemWidth .CHAR :=
  allreduce_sum_permutation ⟨fun _ _ _ => 0, fun _ _ _ => 0⟩ .CHAR rfl 2 1 (by norm_num)
    [[1], [2]] [[2], [1]] rfl (by decide) (by decide) (by decide)
    [⟨0, 0, [(2 : Byte)], .CHAR, .SUM⟩, ⟨1, 0, [(1 : Byte)], .CHAR, .SUM⟩]
    (by decide) (by decide)

/-- The byte slot of rank r in a rank-ordered buffer of s-byte slots. -/
def sliceAt (s r : Nat) (b : List Byte) : List Byte := (b.drop (r * s)).take s

lemma length_replaceBytes (b : List Byte) (pos : Nat) (p : List Byte)
    (hle : pos + p.length ≤ b.length) : (replaceBytes b pos p).length = b.length := by
  unfold replaceBytes
  simp only [List.length_append, List.length_take, List.length_drop]
  omega

lemma getElem?_replaceBytes (b : List Byte) (pos : Nat) (p : List Byte) (i : Nat)
    (hle : pos + p.length ≤ b.length) :
    (replaceBytes b pos p)[i]? =
      if i < pos then b[i]?
      else if i < pos + p.length then p[i - pos]?
      else b[i]? := by
  unfold replaceBytes
  have htl : (b.take pos).length = pos := by rw [List.length_take]; omega
  by_cases h1 : i < pos
  · rw [List.getElem?_append, if_pos (by rw [List.length_append, htl]; omega)]
    rw [List.getElem?_append, if_pos (by rw [htl]; omega)]
    rw [List.getElem?_take, if_pos h1, if_pos h1]
  · by_cases h2 : i < pos + p.length
    · rw [List.getElem?_append, if_pos (by rw [List.length_append, htl]; omega)]
      rw [List.getElem?_append, if_neg (by rw [htl]; omega)]
      rw [htl, if_neg h1, if_pos h2]
    · rw [List.getElem?_append, if_neg (by rw [List.length_append, htl]; omega)]
      rw [List.length_append, htl, List.getElem?_drop, if_neg h1, if_neg h2]
      congr 1
      omega

lemma sliceAt_eq_of_getElem? (s r : Nat) (out p : List Byte) (hp : p.length = s)
    (h : ∀ j, j < s → out[r * s + j]? = p[j]?) : sliceAt s r out = p := by
  apply List.ext_getElem?
  intro j
  unfold sliceAt
  rw [List.getElem?_take]
  by_cases hj : j < s
  · rw [if_pos hj, List.getElem?_drop, h j hj]
  · rw [if_neg hj]
    symm
    apply List.getElem?_eq_none
    omega

lemma sliceAt_congr (s r : Nat) (out b : List Byte)
    (h : ∀ j, j < s → out[r * s + j]? = b[r * s + j]?) : sliceAt s r out = sliceAt s r b := by
  apply List.ext_getElem?
  intro j
  unfold sliceAt
  rw [List.getElem?_take, List.getElem?_take]
  by_cases hj : j < s
  · rw [if_pos hj, if_pos hj, List.getElem?_drop, List.getElem?_drop, h j hj]
  · rw [if_neg hj, if_neg hj]

/-- When the shared buffer already has the full gathered size, the
Allgather functor performs no resize and only splices the slot. -/
lemma allgatherFunctor_full (W : Nat) (req : AllgatherRequest) (b : List Byte)
    (hb : b.length = req.send_buffer.length * W) :
    allgatherFunctor W req b =
      replaceBytes b (req.rank * req.send_buffer.length) req.send_buffer := by
  simp only [allgatherFunctor]
  rw [if_neg (not_ne_iff.mpr hb)]

/-- The first contribution of a round (empty shared buffer) behaves as
if the buffer had been pre-resized to a zero-filled full buffer. -/
lemma allgatherFunctor_nil_eq (W : Nat) (req : AllgatherRequest) :
    allgatherFunctor W req [] =
      allgatherFunctor W req (List.replicate (req.send_buffer.length * W) 0) := by
  by_cases h : req.send_buffer.length * W = 0
  · simp [allgatherFunctor, resizeBytes, h]
  · simp only [allgatherFunctor, resizeBytes, List.length_nil, List.take_nil, List.nil_append,
      Nat.sub_zero, List.length_replicate, ne_eq]
    rw [if_pos (by omega), if_neg (by simp)]

/-- One Allgather functor application on a full-size buffer: length is
preserved, the caller's slot now holds its payload, and every other
rank's slot is untouched. -/
lemma allgatherFunctor_spec (W : Nat) (req : AllgatherRequest) (b : List Byte)
    (hb : b.length = req.send_buffer.length * W) (hr : req.rank < W) :
    (allgatherFunctor W req b).length = req.send_buffer.length * W ∧
    sliceAt req.send_buffer.length req.rank (allgatherFunctor W req b) = req.send_buffer ∧
    ∀ r2, r2 < W → r2 ≠ req.rank →
      sliceAt req.send_buffer.length r2 (allgatherFunctor W req b) =
        sliceAt req.send_buffer.length r2 b := by
  have hle : req.rank * req.send_buffer.length + req.send_buffer.length ≤ b.length := by
    have h1 : (req.rank + 1) * req.send_buffer.length ≤ W * req.send_buffer.length :=
      Nat.mul_le_mul_right _ hr
    have h2 : (req.rank + 1) * req.send_buffer.length =
        req.rank * req.send_buffer.length + req.send_buffer.length := by ring
    have h3 : W * req.send_buffer.length = req.send_buffer.length * W := Nat.mul_comm ..
    omega
  rw [allgatherFunctor_full W req b hb]
  refine ⟨?_, ?_, ?_⟩
  · rw [length_replaceBytes b _ _ hle, hb]
  · apply sliceAt_eq_of_getElem? _ req.rank _ _ rfl
    intro j hj
    rw [getElem?_replaceBytes b _ _ _ hle, if_neg (by omega), if_pos (by omega)]
    congr 1
    omega
  · intro r2 h2 hne
    apply sliceAt_congr
    intro j hj
    rw [getElem?_replaceBytes b _ _ _ hle]
    by_cases hlt : r2 < req.rank
    · rw [if_pos ?hc]
      case hc =>
        have ha : (r2 + 1) * req.send_buffer.length ≤ req.rank * req.send_buffer.length :=
          Nat.mul_le_mul_right _ (by omega)
        have hb2 : (r2 + 1) * req.send_buffer.length =
            r2 * req.send_buffer.length + req.send_buffer.length := by ring
        omega
    · have hgt : req.rank < r2 := by omega
      have ha : (req.rank + 1) * req.send_buffer.length ≤ r2 * req.send_buffer.length :=
        Nat.mul_le_mul_right _ (by omega)
      have hb2 : (req.rank + 1) * req.send_buffer.length =
          req.rank * req.send_buffer.length + req.send_buffer.length := by ring
      rw [if_neg (by omega), if_neg (by omega)]

/-- Invariant of the Allgather round fold: starting from a full-size
buffer, after folding a duplicate-free list of in-range ranks, the
buffer keeps its size, every folded rank's slot holds that rank's
payload, and every untouched rank's slot is unchanged. -/
lemma gather_fold (W s q : Nat) (pay : Nat → List Byte)
    (hsize : ∀ r, r < W → (pay r).length = s) :
    ∀ (l : List Nat) (b : List Byte), b.length = s * W → (∀ r ∈ l, r < W) → l.Nodup →
      (l.foldl (fun acc r => allgatherFunctor W ⟨r, q, pay r⟩ acc) b).length = s * W ∧
      (∀ r ∈ l,
        sliceAt s r (l.foldl (fun acc r => allgatherFunctor W ⟨r, q, pay r⟩ acc) b) = pay r) ∧
      (∀ r, r < W → r ∉ l →
        sliceAt s r (l.foldl (fun acc r => allgatherFunctor W ⟨r, q, pay r⟩ acc) b) =
          sliceAt s r b) := by
  intro l
  induction l with
  | nil =>
    intro b hb _ _
    exact ⟨hb, by simp, fun r _ _ => rfl⟩
  | cons r0 rest ih =>
    intro b hb hmem hnodup
    obtain ⟨hr0nin, hrestnd⟩ := List.nodup_cons.mp hnodup
    have hr0 : r0 < W := hmem r0 (List.mem_cons_self r0 rest)
    have hspec := allgatherFunctor_spec W ⟨r0, q, pay r0⟩ b
      (by rw [hb, hsize r0 hr0]) hr0
    rw [hsize r0 hr0] at hspec
    simp only [List.foldl_cons]
    have hih := ih (allgatherFunctor W ⟨r0, q, pay r0⟩ b) hspec.1
      (fun r hrm => hmem r (List.mem_cons_of_mem r0 hrm)) hrestnd
    refine ⟨hih.1, ?_, ?_⟩
    · intro r hrm
      rcases List.mem_cons.mp hrm with hre | hrm2
      · subst hre
        rw [hih.2.2 r hr0 hr0nin, hspec.2.1]
      · exact hih.2.1 r hrm2
    · intro r hrW hrnin
      rw [hih.2.2 r hrW (fun hc => hrnin (List.mem_cons_of_mem r0 hc)),
        hspec.2.2 r hrW (fun hc => hrnin (hc ▸ List.mem_cons_self r0 rest))]

/-- C4: for every world size W and every permutation of arrival order
of W Allgather contributions of equal payload size s, after all W
functor applications the shared buffer has length exactly W * s and,
for every rank r below W, the byte range from r * s to (r+1) * s
equals rank r's payload. -/
theorem allgather_rank_layout (W s q : Nat) (pay : Nat → List Byte)
    (hsize : ∀ r, r < W → (pay r).length = s) (perm : List Nat)
    (hperm : perm.Perm (List.range W)) :
    (perm.foldl (fun acc r => allgatherFunctor W ⟨r, q, pay r⟩ acc) []).length = W * s ∧
    ∀ r, r < W →
      sliceAt s r (perm.foldl (fun acc r => allgatherFunctor W ⟨r, q, pay r⟩ acc) []) =
        pay r := by
  have hmem : ∀ r ∈ perm, r < W := fun r hr => List.mem_range.mp (hperm.subset hr)
  have hnodup : perm.Nodup := (hperm.nodup_iff).mpr (List.nodup_range W)
  cases perm with
  | nil =>
    have hW : List.range W = [] := hperm.symm.eq_nil
    have hW0 : W = 0 := by
      have := List.length_range W
      rw [hW] at this
      simpa using this.symm
    subst hW0
    exact ⟨by simp, fun r hr => absurd hr (by omega)⟩
  | cons r0 rest =>
    have hr0 : r0 < W := hmem r0 (List.mem_cons_self r0 rest)
    have h0 := allgatherFunctor_nil_eq W ⟨r0, q, pay r0⟩
    rw [List.foldl_cons, h0]
    have hrepl : (List.replicate
        ((⟨r0, q, pay r0⟩ : AllgatherRequest).send_buffer.length * W) (0 : Byte)).length =
        s * W := by
      rw [List.length_replicate]
      simp only
      rw [hsize r0 hr0]
    have hfold := gather_fold W s q pay hsize (r0 :: rest) _ hrepl hmem hnodup
    rw [List.foldl_cons] at hfold
    refine ⟨by rw [hfold.1, Nat.mul_comm], ?_⟩
    intro r hrW
    exact hfold.2.1 r ((hperm.mem_iff).mpr (List.mem_range.mpr hrW))

/-- Concrete instantiation of the C4 theorem: W = 2, one-byte
payloads, arrival order swapped. -/
theorem allgather_rank_layout_witness :
    (([1, 0] : List Nat).foldl
      (fun acc r => allgatherFunctor 2
        ⟨r, 0, if r = 0 then [(1 : Byte)] else [(2 : Byte)]⟩ acc) []).length = 2 * 1 ∧
    ∀ r, r < 2 →
      sliceAt 1 r (([1, 0] : List Nat).foldl
        (fun acc r => allgatherFunctor 2
          ⟨r, 0, if r = 0 then [(1 : Byte)] else [(2 : Byte)]⟩ acc) []) =
        (if r = 0 then [(1 : Byte)] else [(2 : Byte)]) :=
  allgather_rank_layout 2 1 0 (fun r => if r = 0 then [(1 : Byte)] else [(2 : Byte)])
    (by
      intro r hr
      interval_cases r <;> rfl)
    [1, 0] (by decide)

/-- C10: an Allgather functor application on a buffer that already has
the full gathered size modifies only the caller's slot: it preserves
the length and every byte outside the slot; and the first contribution
of a round (empty shared buffer) resizes with zero fill, so every byte
outside the caller's slot is zero. -/
theorem allgather_frame (W : Nat) (req : AllgatherRequest) (hr : req.rank < W) :
    (∀ (b : List Byte), b.length = req.send_buffer.length * W →
      (allgatherFunctor W req b).length = b.length ∧
      ∀ i, i < req.rank * req.send_buffer.length ∨
          (req.rank + 1) * req.send_buffer.length ≤ i →
        (allgatherFunctor W req b)[i]? = b[i]?) ∧
    (∀ i, i < req.send_buffer.length * W →
      (i < req.rank * req.send_buffer.length ∨
        (req.rank + 1) * req.send_buffer.length ≤ i) →
      (allgatherFunctor W req [])[i]? = some (0 : Byte)) := by
  have hexp : (req.rank + 1) * req.send_buffer.length =
      req.rank * req.send_buffer.length + req.send_buffer.length := by ring
  have hWs : (req.rank + 1) * req.send_buffer.length ≤ W * req.send_buffer.length :=
    Nat.mul_le_mul_right _ hr
  constructor
  · intro b hb
    have hle : req.rank * req.send_buffer.length + req.send_buffer.length ≤ b.length := by
      have h3 : W * req.send_buffer.length = req.send_buffer.length * W := Nat.mul_comm ..
      omega
    rw [allgatherFunctor_full W req b hb]
    refine ⟨length_replaceBytes b _ _ hle, ?_⟩
    intro i hi
    rw [getElem?_replaceBytes b _ _ _ hle]
    rcases hi with hlo | hhi
    · rw [if_pos hlo]
    · rw [if_neg (by omega), if_neg (by omega)]
  · intro i hiW hi
    have hb : (List.replicate (req.send_buffer.length * W) (0 : Byte)).length =
        req.send_buffer.length * W := List.length_replicate ..
    have hle : req.rank * req.send_buffer.length + req.send_buffer.length ≤
        (List.replicate (req.send_buffer.length * W) (0 : Byte)).length := by
      have h3 : W * req.send_buffer.length = req.send_buffer.length * W := Nat.mul_comm ..
      omega
    rw [allgatherFunctor_nil_eq W req, allgatherFunctor_full W req _ hb,
      getElem?_replaceBytes _ _ _ _ hle]
    rcases hi with hlo | hhi
    · rw [if_pos hlo, List.getElem?_replicate, if_pos hiW]
    · rw [if_neg (by omega), if_neg (by omega), List.getElem?_replicate, if_pos hiW]

/-- Concrete instantiation of the C10 theorem. -/
theorem allgather_frame_witness :
    (∀ (b : List Byte),
      b.length = (⟨0, 0, [(5 : Byte)]⟩ : AllgatherRequest).send_buffer.length * 2 →
      (allgatherFunctor 2 ⟨0, 0, [(5 : Byte)]⟩ b).length = b.length ∧
      ∀ i, i < (0 : Nat) * (⟨0, 0, [(5 : Byte)]⟩ : AllgatherRequest).send_buffer.length ∨
          ((0 : Nat) + 1) * (⟨0, 0, [(5 : Byte)]⟩ : AllgatherRequest).send_buffer.length ≤ i →
        (allgatherFunctor 2 ⟨0, 0, [(5 : Byte)]⟩ b)[i]? = b[i]?) ∧
    (∀ i, i < (⟨0, 0, [(5 : Byte)]⟩ : AllgatherRequest).send_buffer.length * 2 →
      (i < (0 : Nat) * (⟨0, 0, [(5 : Byte)]⟩ : AllgatherRequest).send_buffer.length ∨
        ((0 : Nat) + 1) * (⟨0, 0, [(5 : Byte)]⟩ : AllgatherRequest).send_buffer.length ≤ i) →
      (allgatherFunctor 2 ⟨0, 0, [(5 : Byte)]⟩ [])[i]? = some (0 : Byte)) :=
  allgather_frame 2 ⟨0, 0, [(5 : Byte)]⟩ (by norm_num)

/-- Case analysis of one Handle lock region: either the sequence
number is unchanged, or the region is a retiring depart that resets
the whole round state. -/
lemma step_seq_cases {Req : Type} {W : Nat} {op : CollOp Req} {s s' : SessionState}
    {e : Event Req} (h : Step W op s e s') :
    (s'.sequence_number = s.sequence_number ∧
      ¬(e = Event.depart s.buffer ∧ s.sent + 1 = W)) ∨
    (e = Event.depart s.buffer ∧ s.received = W ∧ s.sent + 1 = W ∧
      s' = ⟨s.sequence_number + 1, 0, 0, []⟩) := by
  cases h with
  | arrive req b1 hW1 hseq hF =>
    exact Or.inl ⟨rfl, fun hc => by cases hc.1⟩
  | arriveErr req err hW1 hseq hF =>
    exact Or.inl ⟨rfl, fun hc => by cases hc.1⟩
  | depart hW1 hrecv =>
    by_cases hsent : s.sent + 1 = W
    · rw [if_pos hsent]
      exact Or.inr ⟨rfl, hrecv, hsent, rfl⟩
    · rw [if_neg hsent]
      exact Or.inl ⟨rfl, fun hc => hsent hc.2⟩
  | fast req hW1 =>
    exact Or.inl ⟨rfl, fun hc => by cases hc.1⟩

lemma step_seq_le {Req : Type} {W : Nat} {op : CollOp Req} {s s' : SessionState}
    {e : Event Req} (h : Step W op s e s') :
    s.sequence_number ≤ s'.sequence_number := by
  rcases step_seq_cases h with ⟨h1, _⟩ | ⟨_, _, _, h4⟩
  · omega
  · rw [h4]
    exact Nat.le_succ _

lemma trace_seq_le {Req : Type} {W : Nat} {op : CollOp Req} :
    ∀ {es : List (Event Req)} {s t : SessionState}, Trace W op s es t →
      s.sequence_number ≤ t.sequence_number := by
  intro es
  induction es with
  | nil =>
    intro s t h
    cases h
    omega
  | cons e rest ih =>
    intro s t h
    cases h with
    | cons hstep htr => exact Nat.le_trans (step_seq_le hstep) (ih htr)

/-- C1: for W >= 2, a lock region that performs the departed-count
increment reaching W (a depart with sent + 1 = W) performs exactly the
round reset: the successor state has sequence number one larger and
zeroed counters with an empty buffer - the initial state of the next
round; and conversely no other lock region changes the sequence
number at all. -/
theorem round_retirement {Req : Type} (W : Nat) (op : CollOp Req) (hW : 2 ≤ W)
    (s s' : SessionState) (e : Event Req) (h : Step W op s e s') :
    (((∃ b, e = Event.depart b) ∧ s.sent + 1 = W) →
      s.received = W ∧ s' = ⟨s.sequence_number + 1, 0, 0, []⟩) ∧
    (s'.sequence_number ≠ s.sequence_number →
      (∃ b, e = Event.depart b) ∧ s.sent + 1 = W ∧ s.received = W ∧
        s' = ⟨s.sequence_number + 1, 0, 0, []⟩ ∧
        s'.sequence_number = s.sequence_number + 1) := by
  constructor
  · rintro ⟨⟨b, hb⟩, hsent⟩
    cases h with
    | arrive req b1 hW1 hseq hF => cases hb
    | arriveErr req err hW1 hseq hF => cases hb
    | depart hW1 hrecv =>
      rw [if_pos hsent]
      exact ⟨hrecv, rfl⟩
    | fast req hW1 => cases hb
  · intro hne
    rcases step_seq_cases h with ⟨h1, _⟩ | ⟨h1, h2, h3, h4⟩
    · exact absurd h1 hne
    · exact ⟨⟨s.buffer, h1⟩, h3, h2, h4, by rw [h4]⟩

/-- Concrete instantiation of the C1 theorem: the second (last) depart
of a W = 2 round retires it. -/
theorem round_retirement_witness :
    (((∃ b, (Event.depart [] : Event BroadcastRequest) = Event.depart b) ∧
        (⟨0, 2, 1, []⟩ : SessionState).sent + 1 = 2) →
      (⟨0, 2, 1, []⟩ : SessionState).received = 2 ∧
      (⟨1, 0, 0, []⟩ : SessionState) =
        ⟨(⟨0, 2, 1, []⟩ : SessionState).sequence_number + 1, 0, 0, []⟩) ∧
    ((⟨1, 0, 0, []⟩ : SessionState).sequence_number ≠
        (⟨0, 2, 1, []⟩ : SessionState).sequence_number →
      (∃ b, (Event.depart [] : Event BroadcastRequest) = Event.depart b) ∧
        (⟨0, 2, 1, []⟩ : SessionState).sent + 1 = 2 ∧
        (⟨0, 2, 1, []⟩ : SessionState).received = 2 ∧
        (⟨1, 0, 0, []⟩ : SessionState) =
          ⟨(⟨0, 2, 1, []⟩ : SessionState).sequence_number + 1, 0, 0, []⟩ ∧
        (⟨1, 0, 0, []⟩ : SessionState).sequence_number =
          (⟨0, 2, 1, []⟩ : SessionState).sequence_number + 1) := by
  have hstep : Step 2 broadcastOp ⟨0, 2, 1, []⟩ (Event.depart []) ⟨1, 0, 0, []⟩ :=
    Step.depart ⟨0, 2, 1, []⟩ (by decide) rfl
  exact round_retirement 2 broadcastOp (by norm_num) ⟨0, 2, 1, []⟩ ⟨1, 0, 0, []⟩
    (Event.depart []) hstep

/-- Any lock region of a world-size-1 service is the pass-through fast
path: the state is untouched and the reply is the caller's payload. -/
lemma step_world_one {Req : Type} {op : CollOp Req} {s s' : SessionState} {e : Event Req}
    (h : Step 1 op s e s') :
    s' = s ∧ ∃ req, e = Event.fast req (op.payloadOf req) := by
  cases h with
  | arrive req b1 hW1 hseq hF => exact absurd rfl hW1
  | arriveErr req err hW1 hseq hF => exact absurd rfl hW1
  | depart hW1 hrecv => exact absurd rfl hW1
  | fast req hW1 => exact ⟨rfl, req, rfl⟩

lemma trace_world_one {Req : Type} {op : CollOp Req} :
    ∀ {es : List (Event Req)} {s t : SessionState}, Trace 1 op s es t →
      t = s ∧ ∀ e ∈ es, ∃ req, e = Event.fast req (op.payloadOf req) := by
  intro es
  induction es with
  | nil =>
    intro s t h
    cases h
    exact ⟨rfl, by simp⟩
  | cons e rest ih =>
    intro s t h
    cases h with
    | cons hstep htr =>
      obtain ⟨hs, req, he⟩ := step_world_one hstep
      obtain ⟨ht, hall⟩ := ih htr
      subst hs
      refine ⟨ht, ?_⟩
      intro e2 he2
      rcases List.mem_cons.mp he2 with h1 | h2
      · exact ⟨req, h1 ▸ he⟩
      · exact hall e2 h2

/-- C7: when world_size = 1, every call is the pass-through: every
event of every execution from the initial state is a fast reply
carrying the caller's own payload, and the session state (in
particular sequence_number = 0, both counters and the buffer) is
exactly the initial state after any number of calls. -/
theorem world_size_one_passthrough {Req : Type} (op : CollOp Req)
    (es : List (Event Req)) (t : SessionState) (ht : Trace 1 op initialState es t) :
    t = initialState ∧ t.sequence_number = 0 ∧ t.received = 0 ∧ t.sent = 0 ∧ t.buffer = [] ∧
      ∀ e ∈ es, ∃ req, e = Event.fast req (op.payloadOf req) := by
  obtain ⟨h1, h2⟩ := trace_world_one ht
  subst h1
  exact ⟨rfl, rfl, rfl, rfl, rfl, h2⟩

/-- Concrete instantiation of the C7 theorem: one Broadcast call at
world size 1 replies with its own payload and touches nothing. -/
theorem world_size_one_passthrough_witness :
    initialState = initialState ∧ initialState.sequence_number = 0 ∧
    initialState.received = 0 ∧ initialState.sent = 0 ∧ initialState.buffer = [] ∧
    ∀ e ∈ [Event.fast (⟨0, 0, [(1 : Byte)], 0⟩ : BroadcastRequest) [(1 : Byte)]],
      ∃ req, e = Event.fast req (broadcastOp.payloadOf req) :=
  world_size_one_passthrough broadcastOp
    [Event.fast ⟨0, 0, [(1 : Byte)], 0⟩ [(1 : Byte)]] initialState
    (Trace.cons (Step.fast initialState (⟨0, 0, [(1 : Byte)], 0⟩ : BroadcastRequest) rfl)
      (Trace.nil initialState))

/-- An event of a Handle call that runs the request's functor: the
lock region after the admission wait, successful or throwing. -/
def invokes {Req : Type} (e : Event Req) (req : Req) : Prop :=
  (∃ rep, e = Event.arrive req rep) ∨ ∃ err, e = Event.arriveErr req err

lemma trace_append_split {Req : Type} {W : Nat} {op : CollOp Req} :
    ∀ {es1 es2 : List (Event Req)} {s t : SessionState},
      Trace W op s (es1 ++ es2) t → ∃ m, Trace W op s es1 m ∧ Trace W op m es2 t := by
  intro es1
  induction es1 with
  | nil => intro es2 s t h; exact ⟨s, Trace.nil s, h⟩
  | cons e rest ih =>
    intro es2 s t h
    rw [List.cons_append] at h
    cases h with
    | cons hstep htr =>
      obtain ⟨m, h1, h2⟩ := ih htr
      exact ⟨m, Trace.cons hstep h1, h2⟩

/-- The functor of a request runs only under the admission guard: the
pre-state's sequence number equals the request's. -/
lemma step_invokes_seq {Req : Type} {W : Nat} {op : CollOp Req} {s s' : SessionState}
    {e : Event Req} {req : Req} (h : Step W op s e s') (hinv : invokes e req) :
    s.sequence_number = op.seqOf req := by
  cases h with
  | arrive req2 b1 hW1 hseq hF =>
    rcases hinv with ⟨rep, he⟩ | ⟨err, he⟩
    · cases he
      exact hseq
    · cases he
  | arriveErr req2 err2 hW1 hseq hF =>
    rcases hinv with ⟨rep, he⟩ | ⟨err, he⟩
    · cases he
    · cases he
      exact hseq
  | depart hW1 hrecv =>
    rcases hinv with ⟨rep, he⟩ | ⟨err, he⟩ <;> cases he
  | fast req2 hW1 =>
    rcases hinv with ⟨rep, he⟩ | ⟨err, he⟩ <;> cases he

/-- Every sequence number strictly between a trace's start and end was
reached by a retiring depart somewhere inside the trace. -/
lemma trace_retire_exists {Req : Type} {W : Nat} {op : CollOp Req} :
    ∀ {es : List (Event Req)} {s t : SessionState}, Trace W op s es t →
      ∀ q, s.sequence_number ≤ q → q < t.sequence_number →
      ∃ es3 b es4 u, es = es3 ++ Event.depart b :: es4 ∧ Trace W op s es3 u ∧
        u.sequence_number = q ∧ u.received = W ∧ u.sent + 1 = W := by
  intro es
  induction es with
  | nil =>
    intro s t h q h1 h2
    cases h
    omega
  | cons e rest ih =>
    intro s t h q h1 h2
    cases h with
    | cons hstep htr =>
      rename_i s1
      by_cases hq : s1.sequence_number ≤ q
      · obtain ⟨es3, b, es4, u, he, htr3, hu⟩ := ih htr q hq h2
        exact ⟨e :: es3, b, es4, u, by rw [he]; rfl, Trace.cons hstep htr3, hu⟩
      · rcases step_seq_cases hstep with ⟨hseq, _⟩ | ⟨he, hrecv, hsent, hs1⟩
        · omega
        · have hq0 : q = s.sequence_number := by
            rw [hs1] at hq
            simp only at hq
            omega
          subst hq0
          exact ⟨[], s.buffer, rest, s, by rw [he]; rfl, Trace.nil s, rfl, hrecv, hsent⟩

/-- C2: every functor invocation of a request happens only once the
coordinator's sequence number equals the request's sequence number
(the admission predicate), and for a request of round N+1 every
earlier round q <= N has already fully retired before the invocation:
a depart with arrived count W and departed count reaching W occurred
at sequence number q strictly earlier in the execution. -/
theorem admission_blocks {Req : Type} (W : Nat) (op : CollOp Req)
    (es : List (Event Req)) (u : SessionState) (ht : Trace W op initialState es u)
    (es1 : List (Event Req)) (e : Event Req) (es2 : List (Event Req)) (req : Req)
    (hsplit : es = es1 ++ e :: es2) (hinv : invokes e req) :
    ∃ t, Trace W op initialState es1 t ∧ t.sequence_number = op.seqOf req ∧
      ∀ q, q < op.seqOf req →
        ∃ es3 b es4 v, es1 = es3 ++ Event.depart b :: es4 ∧
          Trace W op initialState es3 v ∧
          v.sequence_number = q ∧ v.received = W ∧ v.sent + 1 = W := by
  subst hsplit
  obtain ⟨t, ht1, ht2⟩ := trace_append_split ht
  cases ht2 with
  | cons hstep htr =>
    have hseq := step_invokes_seq hstep hinv
    refine ⟨t, ht1, hseq, ?_⟩
    intro q hq
    exact trace_retire_exists ht1 q (by simp [initialState]) (by omega)

/-- Concrete instantiation of the C2 theorem: a round-0 arrival is
admitted at sequence number 0 with no prior retirement required. -/
theorem admission_blocks_witness :
    ∃ t, Trace 2 broadcastOp initialState [] t ∧
      t.sequence_number = broadcastOp.seqOf (⟨0, 0, [], 0⟩ : BroadcastRequest) ∧
      ∀ q, q < broadcastOp.seqOf (⟨0, 0, [], 0⟩ : BroadcastRequest) →
        ∃ es3 b es4 v, ([] : List (Event BroadcastRequest)) = es3 ++ Event.depart b :: es4 ∧
          Trace 2 broadcastOp initialState es3 v ∧
          v.sequence_number = q ∧ v.received = 2 ∧ v.sent + 1 = 2 :=
  admission_blocks 2 broadcastOp [Event.arrive (⟨0, 0, [], 0⟩ : BroadcastRequest) none]
    ⟨0, 1, 0, []⟩
    (Trace.cons
      (Step.arrive initialState (⟨0, 0, [], 0⟩ : BroadcastRequest) [] (by decide) rfl rfl)
      (Trace.nil ⟨0, 1, 0, []⟩))
    [] (Event.arrive (⟨0, 0, [], 0⟩ : BroadcastRequest) none) [] ⟨0, 0, [], 0⟩ rfl
    (Or.inl ⟨none, rfl⟩)

lemma step_arrive_inv {Req : Type} {W : Nat} {op : CollOp Req} {s s' : SessionState}
    {req : Req} {rep : Option (List Byte)}
    (h : Step W op s (Event.arrive req rep) s') :
    ∃ b1, op.apply req s.buffer = .ok b1 ∧ s.sequence_number = op.seqOf req ∧ W ≠ 1 ∧
      rep = (if s.received + 1 = W then some b1 else none) ∧
      s' = ⟨s.sequence_number, s.received + 1,
            if s.received + 1 = W then s.sent + 1 else s.sent, b1⟩ := by
  cases h with
  | arrive req2 b1 hW1 hseq hF => exact ⟨b1, hF, hseq, hW1, rfl, rfl⟩

lemma step_depart_inv {Req : Type} {W : Nat} {op : CollOp Req} {s s' : SessionState}
    {rep : List Byte} (h : Step W op s (Event.depart rep) s') :
    rep = s.buffer ∧ s.received = W ∧ W ≠ 1 ∧
      s' = (if s.sent + 1 = W then ⟨s.sequence_number + 1, 0, 0, []⟩
            else ⟨s.sequence_number, s.received, s.sent + 1, s.buffer⟩) := by
  cases h with
  | depart hW1 hrecv => exact ⟨rfl, hrecv, hW1, rfl⟩

/-- The collecting phase of a round: a block of consecutive arrivals
keeps the sequence number, adds to the arrived count, folds the
functors into the buffer in arrival order, hands a reply only to an
arrival that completes the quorum, and bumps the departed count
exactly when that happens. -/
lemma trace_arrive_phase {Req : Type} {W : Nat} {op : CollOp Req} :
    ∀ (pairs : List (Req × Option (List Byte))) (s t : SessionState),
      Trace W op s (pairs.map (fun p => Event.arrive p.1 p.2)) t →
      s.received + pairs.length ≤ W →
      t.sequence_number = s.sequence_number ∧
      t.received = s.received + pairs.length ∧
      foldRequests op (pairs.map Prod.fst) s.buffer = .ok t.buffer ∧
      (s.received + pairs.length < W →
        t.sent = s.sent ∧ pairs.map Prod.snd = List.replicate pairs.length none) ∧
      (s.received + pairs.length = W → pairs ≠ [] →
        t.sent = s.sent + 1 ∧
        pairs.map Prod.snd = List.replicate (pairs.length - 1) none ++ [some t.buffer]) := by
  intro pairs
  induction pairs with
  | nil =>
    intro s t h _
    cases h
    exact ⟨rfl, rfl, rfl, fun _ => ⟨rfl, rfl⟩, fun _ hne => absurd rfl hne⟩
  | cons p rest ih =>
    intro s t h hle
    simp only [List.map_cons, List.length_cons] at h hle ⊢
    cases h with
    | cons hstep htr =>
      obtain ⟨b1, hF, hseq, hW1, hrep, hs1⟩ := step_arrive_inv hstep
      subst hs1
      by_cases hit : s.received + 1 = W
      · have hrest : rest = [] := by
          have := List.length_eq_zero.mp (show rest.length = 0 by omega)
          exact this
        subst hrest
        simp only [List.map_nil] at htr
        cases htr
        refine ⟨rfl, by simp, ?_, ?_, ?_⟩
        · simp only [List.map_cons, List.map_nil, foldRequests, hF]
        · intro hlt
          omega
        · intro _ _
          constructor
          · simp [hit]
          · rw [hrep, if_pos hit]
            rfl
      · have hih := ih ⟨s.sequence_number, s.received + 1,
            if s.received + 1 = W then s.sent + 1 else s.sent, b1⟩ t htr (by simp; omega)
        simp only [if_neg hit] at hih
        obtain ⟨ihseq, ihrecv, ihfold, ihlt, iheq⟩ := hih
        refine ⟨ihseq, by omega, ?_, ?_, ?_⟩
        · simp only [List.map_cons, foldRequests, hF]
          exact ihfold
        · intro hlt
          have hlt2 : s.received + 1 + rest.length < W := by omega
          obtain ⟨hsent, hsnd⟩ := ihlt hlt2
          refine ⟨hsent, ?_⟩
          rw [hsnd, hrep, if_neg hit, List.replicate_succ]
        · intro heq _
          have hne : rest ≠ [] := by
            intro hc
            subst hc
            simp at heq
            omega
          obtain ⟨hsent, hsnd⟩ := iheq (by omega) hne
          refine ⟨hsent, ?_⟩
          rw [hsnd, hrep, if_neg hit]
          have hlen : 1 ≤ rest.length := by
            cases rest with
            | nil => exact absurd rfl hne
            | cons a l => simp
          have hrepl : List.replicate (rest.length + 1 - 1) (none : Option (List Byte)) =
              none :: List.replicate (rest.length - 1) none := by
            have h2 : rest.length + 1 - 1 = (rest.length - 1) + 1 := by omega
            rw [h2, List.replicate_succ]
          rw [hrepl]
          rfl

/-- The draining phase of a round: consecutive departs each copy the
(now frozen) buffer into their replies, and the one that brings the
departed count to W performs the reset. -/
lemma trace_depart_phase {Req : Type} {W : Nat} {op : CollOp Req} :
    ∀ (ds : List (List Byte)) (s t : SessionState),
      Trace W op s (ds.map Event.depart) t →
      s.received = W → 1 ≤ s.sent → s.sent < W → s.sent + ds.length ≤ W →
      (∀ b ∈ ds, b = s.buffer) ∧
      (s.sent + ds.length < W →
        t = ⟨s.sequence_number, W, s.sent + ds.length, s.buffer⟩) ∧
      (s.sent + ds.length = W → t = ⟨s.sequence_number + 1, 0, 0, []⟩) := by
  intro ds
  induction ds with
  | nil =>
    intro s t h hrecv h1 hlt _
    cases h
    obtain ⟨sq, rc, st, bf⟩ := s
    simp only at hrecv h1 hlt
    subst hrecv
    refine ⟨by simp, fun _ => by simp, fun heq => ?_⟩
    simp at heq
    omega
  | cons d rest ih =>
    intro s t h hrecv h1 hlt hle
    simp only [List.map_cons, List.length_cons] at h hle ⊢
    cases h with
    | cons hstep htr =>
      obtain ⟨hd, _, hW1, hs1⟩ := step_depart_inv hstep
      by_cases hsent : s.sent + 1 = W
      · rw [if_pos hsent] at hs1
        subst hs1
        have hrest : rest = [] := List.length_eq_zero.mp (by omega)
        subst hrest
        simp only [List.map_nil] at htr
        cases htr
        refine ⟨by simp [hd], fun hc => by simp at hc; omega, fun _ => rfl⟩
      · rw [if_neg hsent] at hs1
        subst hs1
        have hih := ih ⟨s.sequence_number, s.received, s.sent + 1, s.buffer⟩ t htr
          hrecv (Nat.le_add_left 1 s.sent) (show s.sent + 1 < W by omega)
          (show s.sent + 1 + rest.length ≤ W by omega)
        simp only [hrecv] at hih
        obtain ⟨hall, hltc, heqc⟩ := hih
        refine ⟨?_, ?_, ?_⟩
        · intro b hb
          rcases List.mem_cons.mp hb with hb1 | hb2
          · rw [hb1, hd]
          · exact hall b hb2
        · intro hc
          rw [hltc (by omega)]
          have harith : s.sent + 1 + rest.length = s.sent + (rest.length + 1) := by omega
          rw [harith]
        · intro hc
          exact heqc (by omega)

lemma foldRequests_broadcast (l : List BroadcastRequest) :
    ∀ b, foldRequests broadcastOp l b =
      .ok (l.foldl (fun acc r => broadcastFunctor r acc) b) := by
  induction l with
  | nil => intro b; rfl
  | cons r rest ih =>
    intro b
    simp only [foldRequests, broadcastOp, List.foldl_cons]
    exact ih (broadcastFunctor r b)

lemma broadcast_foldl_no_root (l : List BroadcastRequest)
    (h : ∀ r ∈ l, r.rank ≠ r.root) :
    ∀ b, l.foldl (fun acc r => broadcastFunctor r acc) b = b := by
  induction l with
  | nil => intro b; rfl
  | cons r rest ih =>
    intro b
    rw [List.foldl_cons]
    have hr : broadcastFunctor r b = b := by
      unfold broadcastFunctor
      rw [if_neg (h r (List.mem_cons_self r rest))]
    rw [hr]
    exact ih (fun r2 h2 => h r2 (List.mem_cons_of_mem r h2)) b

lemma broadcast_foldl_value (l1 l2 : List BroadcastRequest) (r0 : BroadcastRequest)
    (h0 : r0.rank = r0.root) (h2 : ∀ r ∈ l2, r.rank ≠ r.root) (b : List Byte) :
    ((l1 ++ r0 :: l2).foldl (fun acc r => broadcastFunctor r acc) b) = r0.send_buffer := by
  rw [List.foldl_append, List.foldl_cons]
  have hr0 : broadcastFunctor r0 (l1.foldl (fun acc r => broadcastFunctor r acc) b) =
      r0.send_buffer := by
    unfold broadcastFunctor
    rw [if_pos h0]
  rw [hr0]
  exact broadcast_foldl_no_root l2 h2 _

lemma countP_one_split {α : Type} (p : α → Bool) :
    ∀ (l : List α), l.countP p = 1 →
      ∃ l1 a l2, l = l1 ++ a :: l2 ∧ p a = true ∧ (∀ x ∈ l2, p x = false) := by
  intro l
  induction l with
  | nil => intro h; simp [List.countP_nil] at h
  | cons x rest ih =>
    intro h
    by_cases hx : p x = true
    · rw [List.countP_cons_of_pos _ _ hx] at h
      have h0 : rest.countP p = 0 := by omega
      refine ⟨[], x, rest, rfl, hx, ?_⟩
      intro y hy
      have := List.countP_eq_zero.mp h0 y hy
      simpa using this
    · rw [List.countP_cons_of_neg _ _ (by simpa using hx)] at h
      obtain ⟨l1, a, l2, hsplit, hpa, hl2⟩ := ih h
      exact ⟨x :: l1, a, l2, by rw [hsplit]; rfl, hpa, hl2⟩

lemma countP_range_eq_one (W root : Nat) (h : root < W) :
    (List.range W).countP (fun r => decide (r = root)) = 1 := by
  induction W with
  | zero => omega
  | succ n ihn =>
    rw [List.range_succ, List.countP_append]
    by_cases hr : root = n
    · subst hr
      have h0 : (List.range root).countP (fun r => decide (r = root)) = 0 := by
        rw [List.countP_eq_zero]
        intro a ha
        rw [List.mem_range] at ha
        simp
        omega
      rw [h0]
      simp
    · have h1 : root < n := by omega
      rw [ihn h1]
      simp [hr]
      omega

/-- C6: in a Broadcast round with world size W and root below W, for
every arrival order (any permutation of the W ranks' requests, root
possibly last) and any draining interleaving, only the root's functor
application writes the buffer while every rank still counts toward the
quorum, and every reply - the last arriver's immediate one and the
W - 1 departing ones - equals the root's payload; the round then
retires to the next initial state. -/
theorem broadcast_round_replies (W root q : Nat) (pay : Nat → List Byte) (hW : 2 ≤ W)
    (hroot : root < W) (pairs : List (BroadcastRequest × Option (List Byte)))
    (ds : List (List Byte)) (t : SessionState)
    (hperm : (pairs.map Prod.fst).Perm
      ((List.range W).map (fun r => (⟨r, q, pay r, root⟩ : BroadcastRequest))))
    (hds : ds.length = W - 1)
    (ht : Trace W broadcastOp ⟨q, 0, 0, []⟩
      (pairs.map (fun p => Event.arrive p.1 p.2) ++ ds.map Event.depart) t) :
    (∀ b ∈ ds, b = pay root) ∧
    pairs.map Prod.snd = List.replicate (W - 1) none ++ [some (pay root)] ∧
    t = ⟨q + 1, 0, 0, []⟩ := by
  obtain ⟨m, ht1, ht2⟩ := trace_append_split ht
  have hplen : pairs.length = W := by
    have h1 := hperm.length_eq
    simpa using h1
  have harr := trace_arrive_phase pairs ⟨q, 0, 0, []⟩ m ht1 (by simp [hplen])
  obtain ⟨hseq, hrecv, hfold, _, hquorum⟩ := harr
  have hcount : (pairs.map Prod.fst).countP (fun r => decide (r.rank = r.root)) = 1 := by
    rw [hperm.countP_eq, List.countP_map]
    exact countP_range_eq_one W root hroot
  have hsplit0 := countP_one_split (fun r => decide (r.rank = r.root))
    (pairs.map Prod.fst) hcount
  obtain ⟨l1, a, l2, hsplit2, hpa, hl2⟩ := hsplit0
  have ha_mem : a ∈ (List.range W).map
      (fun r => (⟨r, q, pay r, root⟩ : BroadcastRequest)) := by
    apply hperm.subset
    rw [hsplit2]
    exact List.mem_append_right l1 (List.mem_cons_self a l2)
  obtain ⟨r0, _, hr0eq⟩ := List.mem_map.mp ha_mem
  have hroot_a : a.send_buffer = pay root := by
    have hra : a.rank = a.root := of_decide_eq_true hpa
    rw [← hr0eq] at hra ⊢
    simp only at hra ⊢
    rw [hra]
  have hbuf : m.buffer = pay root := by
    rw [hsplit2, foldRequests_broadcast] at hfold
    simp only [Except.ok.injEq] at hfold
    rw [broadcast_foldl_value l1 l2 a (of_decide_eq_true hpa)
      (fun r hr => of_decide_eq_false (hl2 r hr)) []] at hfold
    rw [← hfold, hroot_a]
  obtain ⟨hsentm, hsndm⟩ := hquorum (by simp [hplen])
    (by
      intro hc
      rw [hc] at hplen
      simp at hplen
      omega)
  have hrecv2 : m.received = W := by simpa [hplen] using hrecv
  have hsent2 : m.sent = 1 := by simpa using hsentm
  have hseq2 : m.sequence_number = q := by simpa using hseq
  have hdep := trace_depart_phase ds m t ht2 hrecv2 (by omega) (by omega) (by omega)
  obtain ⟨hdall, _, hdeq⟩ := hdep
  refine ⟨?_, ?_, ?_⟩
  · intro b hb
    rw [hdall b hb, hbuf]
  · rw [hsndm, hplen, hbuf]
  · rw [hdeq (by omega), hseq2]

/-- Concrete instantiation of the C6 theorem: W = 2, root 0 arriving
last; both replies carry the root's payload and the round retires. -/
theorem broadcast_round_replies_witness :
    (∀ b ∈ [[(9 : Byte)]], b = [(9 : Byte)]) ∧
    ([((⟨1, 0, [(7 : Byte)], 0⟩ : BroadcastRequest), (none : Option (List Byte))),
      ((⟨0, 0, [(9 : Byte)], 0⟩ : BroadcastRequest), some [(9 : Byte)])].map Prod.snd =
      List.replicate (2 - 1) none ++ [some [(9 : Byte)]]) ∧
    (⟨1, 0, 0, []⟩ : SessionState) = ⟨0 + 1, 0, 0, []⟩ :=
  broadcast_round_replies 2 0 0 (fun r => if r = 0 then [(9 : Byte)] else [(7 : Byte)])
    (by norm_num) (by norm_num)
    [((⟨1, 0, [(7 : Byte)], 0⟩ : BroadcastRequest), (none : Option (List Byte))),
     ((⟨0, 0, [(9 : Byte)], 0⟩ : BroadcastRequest), some [(9 : Byte)])]
    [[(9 : Byte)]] ⟨1, 0, 0, []⟩ (by decide) rfl
    (Trace.cons
      (Step.arrive ⟨0, 0, 0, []⟩ (⟨1, 0, [(7 : Byte)], 0⟩ : BroadcastRequest) []
        (by decide) rfl rfl)
      (Trace.cons
        (Step.arrive ⟨0, 1, 0, []⟩ (⟨0, 0, [(9 : Byte)], 0⟩ : BroadcastRequest) [(9 : Byte)]
          (by decide) rfl rfl)
        (Trace.cons (Step.depart ⟨0, 2, 1, [(9 : Byte)]⟩ (by decide) rfl)
          (Trace.nil ⟨1, 0, 0, []⟩))))

end Federated
